import Mathlib

/-!
Verification of the rspirv `autogen` header generator (`src/autogen/src/header.rs`).

The generator consumes an in-memory SPIR-V grammar (parsed elsewhere, in
`structs.rs`, which is outside the sources given here and is therefore modelled
from the specification's data-model section) and produces the Rust source of the
`spirv` header: one declaration per BitEnum/ValueEnum operand kind, the main
opcode enumeration, alias constants for duplicated discriminants, and numeric
and string conversion functions.

The embedding below represents the emitted token streams structurally: an
emitted enum is a list of `(identifier, value)` variants, the emitted
`FromPrimitive` impl is the list of match arms of `from_i64`, the emitted
`FromStr` impl is the list of match arms of `from_str`, and so on.  The external
crates used by the generator are modelled as follows: `proc_macro2::Ident`
creation (`as_ident` in the repository's `utils.rs`, not among the given
sources) is modelled from the spec as the identity on the symbol text
(canonicalization itself never fails; identifier-validity checking is a
separate hard error out of scope here); `heck`'s case conversion is an external
crate and is kept as an explicit function parameter `shouty`; `BTreeMap` is
modelled as an association list (the generator only ever queries it by key, and
keys are inserted at most once, so ordering is irrelevant to every property
proved here).
-/

namespace RSpirv

/-- Modelled from the spec: quantifier of a grammar parameter (`structs.rs`,
which is not among the given sources). -/
inductive Quantifier where
  | One
  | ZeroOrOne
  | ZeroOrMore
deriving DecidableEq, Repr

/-- Modelled from the spec: a grammar parameter, referencing an operand kind by
name together with a quantifier (`structs.rs`). -/
structure Parameter where
  kind : String
  quantifier : Quantifier
deriving DecidableEq, Repr

/-- Modelled from the spec: one enumerant of an operand kind (`structs.rs`):
a raw symbol, a numeric value, capability and extension gating sequences, and a
parameter sequence. -/
structure Enumerant where
  symbol : String
  value : Nat
  capabilities : List String
  extensions : List String
  parameters : List Parameter
deriving DecidableEq, Repr

/-- Modelled from the spec: the operand-kind category.  Only `BitEnum` and
`ValueEnum` participate in generation; all other categories are uninterpreted
here. -/
inductive Category where
  | BitEnum
  | ValueEnum
  | Other
deriving DecidableEq, Repr

/-- Modelled from the spec: an operand kind (`structs.rs`): a category, a name,
and an ordered sequence of enumerants. -/
structure OperandKind where
  category : Category
  kind : String
  enumerants : List Enumerant
deriving DecidableEq, Repr

/-- Modelled from the spec: one instruction of an opcode table (`structs.rs`):
an opname and a numeric opcode.  Only these two fields are read by the
generator. -/
structure Instruction where
  opname : String
  opcode : Nat
deriving DecidableEq, Repr

/-- Modelled from the spec: the grammar (`structs.rs`): format metadata plus the
ordered operand kinds and instructions. -/
structure Grammar where
  magic_number : Nat
  major_version : Nat
  minor_version : Nat
  revision : Nat
  operand_kinds : List OperandKind
  instructions : List Instruction
deriving DecidableEq, Repr

/-- Modelled from the spec: an extended-instruction-set grammar (`structs.rs`);
only its instruction list is read by `gen_opcodes`. -/
structure ExtInstSetGrammar where
  instructions : List Instruction
deriving DecidableEq, Repr

/-- The emitted `LogicalOperand { kind: OperandKind::#kind, quantifier: #quant }`
token, represented structurally. -/
structure LogicalOperand where
  kind : String
  quantifier : Quantifier
deriving DecidableEq, Repr

/-- The mapping from a grammar parameter to the emitted `LogicalOperand` tokens
(the closure at `header.rs:77-92` and its copy at `header.rs:171-186`). -/
def operandOf (p : Parameter) : LogicalOperand :=
  ⟨p.kind, p.quantifier⟩

/-- Truncation `n as u32` of an `i64` value `n`: truncation to the low 32 bits
(`header.rs:45`). -/
def asU32 (n : Int) : Nat :=
  (n % (2 ^ 32 : Int)).toNat

/-- The generated `from_i64` of the `num_traits::FromPrimitive` impl
(`from_primitive_impl`, `header.rs:40-56`): truncate the argument to `u32` and
match it against the collected `#number => Self::#name` arms in order. -/
def from_i64 (arms : List (Nat × String)) (n : Int) : Option String :=
  (arms.find? (fun a => a.1 == asU32 n)).map (·.2)

/-- Reinterpretation `n as i64` of a `u64` value `n`: two's-complement reinterpretation
(`header.rs:52`). -/
def u64AsI64 (n : Nat) : Int :=
  if n % 2 ^ 64 < 2 ^ 63 then ((n % 2 ^ 64 : Nat) : Int)
  else ((n % 2 ^ 64 : Nat) : Int) - 2 ^ 64

/-- The generated `from_u64` (`header.rs:51-53`): defers to `from_i64` after the
`u64 -> i64` cast. -/
def from_u64 (arms : List (Nat × String)) (n : Nat) : Option String :=
  from_i64 arms (u64AsI64 n)

/-- The generated `FromStr::from_str` (`header.rs:210-219`): match the input
string against the collected `#name_str => Ok(Self::#target)` arms in order,
`Err(())` when none matches. -/
def fromStr (arms : List (String × String)) (s : String) : Except Unit String :=
  match arms.find? (fun a => a.1 == s) with
  | some a => Except.ok a.2
  | none => Except.error ()

/-- Lookup in the `seen_discriminator` map (`BTreeMap<value, Ident>`,
`header.rs:125` and `header.rs:251`), modelled as an association list; keys are
inserted at most once, so `find?` is a faithful model of `BTreeMap::get`. -/
def lookupSeen (l : List (Nat × String)) (v : Nat) : Option String :=
  (l.find? (fun p => p.1 == v)).map (·.2)

/-- Rust's `map.entry(key).or_insert_with(Vec::new).push(x)` on a `BTreeMap` whose
values are vectors (`header.rs:158-166`), modelled on an association list:
append `x` to the group of `key`, creating the group when absent. -/
def insertClause {α : Type} [DecidableEq α] (key : α) (x : String) :
    List (α × List String) → List (α × List String)
  | [] => [(key, [x])]
  | (k, xs) :: rest =>
    if key = k then (k, xs ++ [x]) :: rest else (k, xs) :: insertClause key x rest

/-- Rust's `map.entry(key).or_insert_with(Vec::new).extend(xs)` (`header.rs:168-186`),
modelled on an association list. -/
def extendClause (key : String) (xs : List LogicalOperand) :
    List (String × List LogicalOperand) → List (String × List LogicalOperand)
  | [] => [(key, xs)]
  | (k, ys) :: rest =>
    if key = k then (k, ys ++ xs) :: rest else (k, ys) :: extendClause key xs rest

/-- The `name_str` computation of the value-enum generator (`header.rs:142-150`):
for the operand kind named "Dim" the kind name is prepended to the enumerant
symbol (its enumerants may start with a digit); all other kinds keep the raw
symbol.  `as_ident` (from the repository's `utils.rs`, not among the given
sources) is modelled from the spec as the identity on the text. -/
def canonName (kindName : String) (e : Enumerant) : String :=
  if kindName = "Dim" then "Dim" ++ e.symbol else e.symbol

/-- The state accumulated by the value-enum generator's loop over the enumerants
(`gen_value_enum_operand_kind`, `header.rs:120-188`): each field is one of the
local vectors/maps of the Rust function. -/
@[ext]
structure VEState where
  seen_discriminator : List (Nat × String)
  enumerants : List (String × Nat)
  from_prim_list : List (Nat × String)
  aliases : List (String × String)
  capability_clauses : List (List String × List String)
  extension_clauses : List (List String × List String)
  operand_clauses : List (String × List LogicalOperand)
  from_str_impl : List (String × String)
deriving DecidableEq, Repr

/-- The empty initial state of the value-enum generator's loop
(`header.rs:125-132`). -/
def veInit : VEState :=
  ⟨[], [], [], [], [], [], [], []⟩

/-- One iteration of the value-enum generator's loop (`header.rs:133-188`):
if the enumerant's value was already seen, record an alias constant and a
string-conversion arm resolving to the canonical identifier; otherwise create a
new discriminant, numeric and string conversion arms, and record the enumerant
in the capability/extension/operand clause maps. -/
def veStep (kindName : String) (s : VEState) (e : Enumerant) : VEState :=
  match lookupSeen s.seen_discriminator e.value with
  | some d =>
    { s with
      aliases := s.aliases ++ [(e.symbol, d)]
      from_str_impl := s.from_str_impl ++ [(e.symbol, d)] }
  | none =>
    let name := canonName kindName e
    { s with
      seen_discriminator := s.seen_discriminator ++ [(e.value, name)]
      enumerants := s.enumerants ++ [(name, e.value)]
      from_prim_list := s.from_prim_list ++ [(e.value, name)]
      from_str_impl := s.from_str_impl ++ [(name, name)]
      capability_clauses := insertClause e.capabilities name s.capability_clauses
      extension_clauses := insertClause e.extensions name s.extension_clauses
      operand_clauses :=
        extendClause name (e.parameters.map operandOf) s.operand_clauses }

/-- The value-enum generator's loop over a list of enumerants. -/
def veRun (kindName : String) (s : VEState) : List Enumerant → VEState
  | [] => s
  | e :: es => veRun kindName (veStep kindName s e) es

/-- The full local state produced by `gen_value_enum_operand_kind`
(`header.rs:120-188`) for one operand kind. -/
def veScan (g : OperandKind) : VEState :=
  veRun g.kind veInit g.enumerants

/-- One emitted declaration of the generated header, representing the
corresponding `quote!` output structurally. -/
inductive Decl where
  | formatConstants (magic major minor revision : Nat)
  | bitEnum (name : String) (elements : List (String × Nat))
  | valueEnum (name : String) (variants : List (String × Nat))
      (aliases : List (String × String)) (fromPrim : List (Nat × String))
      (fromStrArms : List (String × String))
  | opEnum (name : String) (variants : List (String × Nat))
      (aliases : List (String × String)) (fromPrim : List (Nat × String))
deriving DecidableEq, Repr

/-- The declaration emitted by `gen_value_enum_operand_kind` (the final `quote!`
at `header.rs:195-220`): the enum variants, the alias constants, the
`FromPrimitive` arms and the `FromStr` arms.  The capability, extension and
operand clause maps built by the loop are not referenced by the emitted
tokens. -/
def gen_value_enum_operand_kind (g : OperandKind) : Decl :=
  Decl.valueEnum g.kind (veScan g).enumerants (veScan g).aliases
    (veScan g).from_prim_list (veScan g).from_str_impl

/-- Rust's `str::replace(\x22NA_N\x22, \x22NAN\x22)` specialised to the call at
`header.rs:69`: replace every occurrence of `NA_N` left to right. -/
def replaceNAN : List Char → List Char
  | 'N' :: 'A' :: '_' :: 'N' :: rest => 'N' :: 'A' :: 'N' :: replaceNAN rest
  | c :: rest => c :: replaceNAN rest
  | [] => []

/-- The flag-constant identifier of a bit-enum enumerant (`header.rs:64-70`):
the external `heck` crate's `to_shouty_snake_case` is kept as the explicit
function parameter `shouty`, followed by the repository's own `NA_N -> NAN`
replacement; `as_ident` is modelled as the identity. -/
def bitSymbol (shouty : String → String) (s : String) : String :=
  String.mk (replaceNAN (shouty s).toList)

/-- The local state accumulated by `gen_bit_enum_operand_kind`'s loop
(`header.rs:58-103`): the flag constants (`elements`), the per-flag operand
match arms (`operands`, storing the flag symbol, the flag's bit value denoted
by `Self::#symbol`, and the attached operand list), and the
`additional_operands_list` of flag symbols carrying parameters. -/
structure BitEnumLocals where
  elements : List (String × Nat)
  operands : List (String × Nat × List LogicalOperand)
  additional_operands_list : List String
deriving DecidableEq, Repr

/-- One iteration of `gen_bit_enum_operand_kind`'s loop (`header.rs:63-103`). -/
def bitStep (shouty : String → String) (acc : BitEnumLocals) (e : Enumerant) :
    BitEnumLocals :=
  let symbol := bitSymbol shouty e.symbol
  let acc := { acc with elements := acc.elements ++ [(symbol, e.value)] }
  if e.parameters.isEmpty then acc
  else
    { acc with
      additional_operands_list := acc.additional_operands_list ++ [symbol]
      operands := acc.operands ++ [(symbol, e.value, e.parameters.map operandOf)] }

/-- The full local state of `gen_bit_enum_operand_kind` for one operand kind. -/
def bitLocals (shouty : String → String) (g : OperandKind) : BitEnumLocals :=
  g.enumerants.foldl (bitStep shouty) ⟨[], [], []⟩

/-- The declaration emitted by `gen_bit_enum_operand_kind` (the final `quote!`
at `header.rs:109-117`): a `bitflags!` struct holding only the flag constants.
The `operands` and `additional_operands_list` locals are not referenced by the
emitted tokens. -/
def gen_bit_enum_operand_kind (shouty : String → String) (g : OperandKind) :
    Decl :=
  Decl.bitEnum g.kind (bitLocals shouty g).elements

/-- The `bitflags` crate's `contains`: `self` contains all bits of `other`
(bit containment, not equality). -/
def containsBits (self other : Nat) : Bool :=
  self &&& other == other

/-- Modelled from the spec: the per-flag operand lookup that would consume the
generated `operands` match arms (`header.rs:97-101`); the surrounding generated
function is absent from the emitted tokens, so its dispatch is modelled from
the spec's words: given a flag-set value `v` and a flag symbol `F`, return the
operand list of the first arm whose symbol is `F` and whose bits are contained
in `v`. -/
def flagOperandLookup (cases : List (String × Nat × List LogicalOperand))
    (v : Nat) (F : String) : Option (List LogicalOperand) :=
  (cases.find? (fun c => c.1 == F && containsBits v c.2.1)).map (·.2.2)

/-- The dispatcher `gen_operand_kind` (`header.rs:225-232`): dispatch on the category, emitting
a declaration only for `BitEnum` and `ValueEnum` kinds. -/
def gen_operand_kind (shouty : String → String) (g : OperandKind) :
    Option Decl :=
  match g.category with
  | Category.BitEnum => some (gen_bit_enum_operand_kind shouty g)
  | Category.ValueEnum => some (gen_value_enum_operand_kind g)
  | Category.Other => none

/-- Drop exactly `k` bytes from the front of a UTF-8 string given as its
character list, failing when the string is shorter than `k` bytes or when byte
index `k` is not a character boundary.  This models Rust's byte-slicing
`&s[k..]`, which panics in exactly those situations. -/
def byteDrop : Nat → List Char → Option (List Char)
  | 0, cs => some cs
  | _ + 1, [] => none
  | k + 1, c :: cs =>
    if c.utf8Size ≤ k + 1 then byteDrop (k + 1 - c.utf8Size) cs else none

/-- The byte slice `&inst.opname[2..]` (`header.rs:259`), as a fallible
operation: `none` models the panic on an opname shorter than two bytes or
without a character boundary at byte index 2. -/
def stripOp (s : String) : Option String :=
  (byteDrop 2 s.toList).map String.mk

/-- The state accumulated by `gen_spirv_header`'s opcode loop
(`header.rs:251-268`). -/
structure OpState where
  seen_discriminator : List (Nat × String)
  opcodes : List (String × Nat)
  aliases : List (String × String)
  from_prim_list : List (Nat × String)
deriving DecidableEq, Repr

/-- The empty initial state of the opcode loop (`header.rs:251-254`). -/
def opInit : OpState :=
  ⟨[], [], [], []⟩

/-- One iteration of the opcode loop on an already-stripped opname
(`header.rs:261-267`): a previously seen opcode yields an alias constant, a
fresh one yields a new discriminant and a `from_i64` arm. -/
def opStep (s : OpState) (opname : String) (opcode : Nat) : OpState :=
  match lookupSeen s.seen_discriminator opcode with
  | some d => { s with aliases := s.aliases ++ [(opname, d)] }
  | none =>
    { s with
      opcodes := s.opcodes ++ [(opname, opcode)]
      from_prim_list := s.from_prim_list ++ [(opcode, opname)]
      seen_discriminator := s.seen_discriminator ++ [(opcode, opname)] }

/-- The opcode loop of `gen_spirv_header` (`header.rs:257-268`), including the
per-instruction `&opname[2..]` byte slice whose failure (`none`) models the
panic. -/
def opRun (s : OpState) : List Instruction → Option OpState
  | [] => some s
  | inst :: rest =>
    match stripOp inst.opname with
    | none => none
    | some nm => opRun (opStep s nm inst.opcode) rest

/-- The assembler `gen_spirv_header` (`header.rs:235-299`): the format constants, then one
declaration per BitEnum/ValueEnum operand kind in grammar order (`filterMap`
skips the other categories), then the `Op` enumeration with its aliases and
`FromPrimitive` impl.  The result is `none` exactly when the opcode loop's byte
slice panics. -/
def gen_spirv_header (shouty : String → String) (g : Grammar) :
    Option (List Decl) :=
  (opRun opInit g.instructions).map fun st =>
    Decl.formatConstants g.magic_number g.major_version g.minor_version
        g.revision
      :: (g.operand_kinds.filterMap (gen_operand_kind shouty)
        ++ [Decl.opEnum "Op" st.opcodes st.aliases st.from_prim_list])

/-- The extended-table generator `gen_opcodes` (`header.rs:302-335`): an extended-instruction-set table.
Every instruction becomes a variant `#opname = #opcode` as-is (no prefix
stripping, no `seen_discriminator` map, hence no aliases), and every instruction
contributes a `from_i64` arm. -/
def gen_opcodes (op : String) (g : ExtInstSetGrammar) : Decl :=
  Decl.opEnum op (g.instructions.map fun i => (i.opname, i.opcode)) []
    (g.instructions.map fun i => (i.opcode, i.opname))

/-! ### Characterization of the value-enum scan

`canonOf k es v` is the canonical identifier that the scan of `es` assigns to
the numeric value `v`: the canonical name of the first enumerant carrying `v`,
or `none` when no enumerant does.  The functions below re-derive each local of
the scan as a function of the enumerant list with an explicit prefix of
already-processed enumerants, and `veRun_char` proves that the loop computes
exactly them. -/

/-- The canonical identifier the scan assigns to value `v`: the canonical name
of the first enumerant of `es` whose value is `v`. -/
def canonOf (kindName : String) (es : List Enumerant) (v : Nat) : Option String :=
  (es.find? (fun e => e.value == v)).map (canonName kindName)

/-- The enumerants of `es` that introduce a new discriminant, given that the
enumerants of `pre` were already processed. -/
def canonEnums (k : String) (pre : List Enumerant) :
    List Enumerant → List Enumerant
  | [] => []
  | e :: es =>
    match canonOf k pre e.value with
    | some _ => canonEnums k (pre ++ [e]) es
    | none => e :: canonEnums k (pre ++ [e]) es

/-- The alias constants contributed by `es` after the prefix `pre`: one
`(raw symbol, canonical identifier)` pair per duplicated value. -/
def aliasArms (k : String) (pre : List Enumerant) :
    List Enumerant → List (String × String)
  | [] => []
  | e :: es =>
    match canonOf k pre e.value with
    | some d => (e.symbol, d) :: aliasArms k (pre ++ [e]) es
    | none => aliasArms k (pre ++ [e]) es

/-- The `from_str` match arms contributed by `es` after the prefix `pre`: a
duplicate contributes its raw symbol as a key for the canonical identifier, a
fresh value contributes its canonical name as both key and target. -/
def fromStrArms (k : String) (pre : List Enumerant) :
    List Enumerant → List (String × String)
  | [] => []
  | e :: es =>
    match canonOf k pre e.value with
    | some d => (e.symbol, d) :: fromStrArms k (pre ++ [e]) es
    | none => (canonName k e, canonName k e) :: fromStrArms k (pre ++ [e]) es

/-- Folding the canonical enumerants into the capability-clause map. -/
def buildCapClauses (k : String) (ces : List Enumerant)
    (m : List (List String × List String)) : List (List String × List String) :=
  ces.foldl (fun m e => insertClause e.capabilities (canonName k e) m) m

/-- Folding the canonical enumerants into the extension-clause map. -/
def buildExtClauses (k : String) (ces : List Enumerant)
    (m : List (List String × List String)) : List (List String × List String) :=
  ces.foldl (fun m e => insertClause e.extensions (canonName k e) m) m

/-- Folding the canonical enumerants into the operand-clause map. -/
def buildOpClauses (k : String) (ces : List Enumerant)
    (m : List (String × List LogicalOperand)) :
    List (String × List LogicalOperand) :=
  ces.foldl (fun m e => extendClause (canonName k e) (e.parameters.map operandOf) m) m

theorem lookupSeen_append (l₁ l₂ : List (Nat × String)) (v : Nat) :
    lookupSeen (l₁ ++ l₂) v = (lookupSeen l₁ v).or (lookupSeen l₂ v) := by
  unfold lookupSeen
  rw [List.find?_append]
  cases l₁.find? (fun p => p.1 == v) <;> simp

theorem canonOf_append (k : String) (A B : List Enumerant) (v : Nat) :
    canonOf k (A ++ B) v = (canonOf k A v).or (canonOf k B v) := by
  unfold canonOf
  rw [List.find?_append]
  cases A.find? (fun e => e.value == v) <;> simp

theorem lookupSeen_singleton (x : Nat × String) (v : Nat) :
    lookupSeen [x] v = if x.1 = v then some x.2 else none := by
  by_cases h : x.1 = v
  · simp [lookupSeen, h]
  · have hb : (x.1 == v) = false := by simpa using h
    simp [lookupSeen, List.find?, hb, h]

theorem canonOf_singleton (k : String) (e : Enumerant) (v : Nat) :
    canonOf k [e] v = if e.value = v then some (canonName k e) else none := by
  by_cases h : e.value = v
  · simp [canonOf, h]
  · have hb : (e.value == v) = false := by simpa using h
    simp [canonOf, List.find?, hb, h]

theorem canonOf_nil (k : String) (v : Nat) : canonOf k [] v = none := rfl

theorem veStep_alias (k : String) (s : VEState) (e : Enumerant) (d : String)
    (h : lookupSeen s.seen_discriminator e.value = some d) :
    veStep k s e =
      { s with
        aliases := s.aliases ++ [(e.symbol, d)]
        from_str_impl := s.from_str_impl ++ [(e.symbol, d)] } := by
  unfold veStep
  rw [h]

theorem veStep_fresh (k : String) (s : VEState) (e : Enumerant)
    (h : lookupSeen s.seen_discriminator e.value = none) :
    veStep k s e =
      { s with
        seen_discriminator := s.seen_discriminator ++ [(e.value, canonName k e)]
        enumerants := s.enumerants ++ [(canonName k e, e.value)]
        from_prim_list := s.from_prim_list ++ [(e.value, canonName k e)]
        from_str_impl := s.from_str_impl ++ [(canonName k e, canonName k e)]
        capability_clauses :=
          insertClause e.capabilities (canonName k e) s.capability_clauses
        extension_clauses :=
          insertClause e.extensions (canonName k e) s.extension_clauses
        operand_clauses :=
          extendClause (canonName k e) (e.parameters.map operandOf)
            s.operand_clauses } := by
  unfold veStep
  rw [h]

/-- The master characterization of the value-enum loop: started from a state
whose `seen_discriminator` map reflects a processed prefix `pre`, the loop over
`es` appends to each local exactly the arms derived by the functions above. -/
theorem veRun_char (k : String) (es : List Enumerant) :
    ∀ (s : VEState) (pre : List Enumerant),
      (∀ v, lookupSeen s.seen_discriminator v = canonOf k pre v) →
      (∀ v, lookupSeen (veRun k s es).seen_discriminator v
          = canonOf k (pre ++ es) v)
      ∧ (veRun k s es).enumerants
          = s.enumerants ++ (canonEnums k pre es).map (fun e => (canonName k e, e.value))
      ∧ (veRun k s es).from_prim_list
          = s.from_prim_list ++ (canonEnums k pre es).map (fun e => (e.value, canonName k e))
      ∧ (veRun k s es).aliases = s.aliases ++ aliasArms k pre es
      ∧ (veRun k s es).from_str_impl = s.from_str_impl ++ fromStrArms k pre es
      ∧ (veRun k s es).capability_clauses
          = buildCapClauses k (canonEnums k pre es) s.capability_clauses
      ∧ (veRun k s es).extension_clauses
          = buildExtClauses k (canonEnums k pre es) s.extension_clauses
      ∧ (veRun k s es).operand_clauses
          = buildOpClauses k (canonEnums k pre es) s.operand_clauses
      ∧ (veRun k s es).seen_discriminator
          = s.seen_discriminator
            ++ (canonEnums k pre es).map (fun e => (e.value, canonName k e)) := by
  induction es with
  | nil =>
    intro s pre hs
    simp [veRun, canonEnums, aliasArms, fromStrArms, buildCapClauses,
      buildExtClauses, buildOpClauses, hs]
  | cons e es ih =>
    intro s pre hs
    have hse := hs e.value
    have hrun : veRun k s (e :: es) = veRun k (veStep k s e) es := rfl
    cases hcanon : canonOf k pre e.value with
    | some d =>
      rw [hcanon] at hse
      have hstep := veStep_alias k s e d hse
      have hs' : ∀ v, lookupSeen (veStep k s e).seen_discriminator v
          = canonOf k (pre ++ [e]) v := by
        intro v
        rw [hstep, canonOf_append, canonOf_singleton]
        show lookupSeen s.seen_discriminator v = _
        rw [hs v]
        by_cases hv : e.value = v
        · rw [if_pos hv]
          subst hv
          rw [hcanon]
          rfl
        · rw [if_neg hv]
          cases canonOf k pre v <;> rfl
      obtain ⟨h1, h2, h3, h4, h5, h6, h7, h8, h9⟩ :=
        ih (veStep k s e) (pre ++ [e]) hs'
      simp only [canonEnums, aliasArms, fromStrArms, hcanon]
      refine ⟨?_, ?_, ?_, ?_, ?_, ?_, ?_, ?_, ?_⟩
      · intro v
        rw [hrun, h1 v, ← List.append_cons]
      · rw [hrun, h2, hstep]
      · rw [hrun, h3, hstep]
      · rw [hrun, h4, hstep, List.append_assoc]
        rfl
      · rw [hrun, h5, hstep, List.append_assoc]
        rfl
      · rw [hrun, h6, hstep]
      · rw [hrun, h7, hstep]
      · rw [hrun, h8, hstep]
      · rw [hrun, h9, hstep]
    | none =>
      rw [hcanon] at hse
      have hstep := veStep_fresh k s e hse
      have hs' : ∀ v, lookupSeen (veStep k s e).seen_discriminator v
          = canonOf k (pre ++ [e]) v := by
        intro v
        rw [hstep]
        show lookupSeen (s.seen_discriminator ++ [(e.value, canonName k e)]) v
          = canonOf k (pre ++ [e]) v
        rw [lookupSeen_append, canonOf_append, canonOf_singleton,
          lookupSeen_singleton, hs v]
      obtain ⟨h1, h2, h3, h4, h5, h6, h7, h8, h9⟩ :=
        ih (veStep k s e) (pre ++ [e]) hs'
      simp only [canonEnums, aliasArms, fromStrArms, hcanon]
      refine ⟨?_, ?_, ?_, ?_, ?_, ?_, ?_, ?_, ?_⟩
      · intro v
        rw [hrun, h1 v, ← List.append_cons]
      · rw [hrun, h2, hstep, List.append_assoc]
        rfl
      · rw [hrun, h3, hstep, List.append_assoc]
        rfl
      · rw [hrun, h4, hstep]
      · rw [hrun, h5, hstep, List.append_assoc]
        rfl
      · rw [hrun, h6, hstep]
        rfl
      · rw [hrun, h7, hstep]
        rfl
      · rw [hrun, h8, hstep]
        rfl
      · rw [hrun, h9, hstep, List.append_assoc]
        rfl

/-- The characterization of the full value-enum scan, from the empty state. -/
theorem veScan_char (g : OperandKind) :
    (∀ v, lookupSeen (veScan g).seen_discriminator v
        = canonOf g.kind g.enumerants v)
    ∧ (veScan g).enumerants
        = (canonEnums g.kind [] g.enumerants).map
            (fun e => (canonName g.kind e, e.value))
    ∧ (veScan g).from_prim_list
        = (canonEnums g.kind [] g.enumerants).map
            (fun e => (e.value, canonName g.kind e))
    ∧ (veScan g).aliases = aliasArms g.kind [] g.enumerants
    ∧ (veScan g).from_str_impl = fromStrArms g.kind [] g.enumerants
    ∧ (veScan g).capability_clauses
        = buildCapClauses g.kind (canonEnums g.kind [] g.enumerants) []
    ∧ (veScan g).extension_clauses
        = buildExtClauses g.kind (canonEnums g.kind [] g.enumerants) []
    ∧ (veScan g).operand_clauses
        = buildOpClauses g.kind (canonEnums g.kind [] g.enumerants) []
    ∧ (veScan g).seen_discriminator
        = (canonEnums g.kind [] g.enumerants).map
            (fun e => (e.value, canonName g.kind e)) := by
  have h := veRun_char g.kind g.enumerants veInit [] (fun v => rfl)
  simpa [veScan, veInit] using h

theorem canonOf_append_dup (k : String) (pre : List Enumerant) (e : Enumerant)
    (h : (canonOf k pre e.value).isSome) :
    ∀ v, canonOf k (pre ++ [e]) v = canonOf k pre v := by
  intro v
  rw [canonOf_append, canonOf_singleton]
  by_cases hv : e.value = v
  · subst hv
    obtain ⟨d, hd⟩ := Option.isSome_iff_exists.mp h
    rw [hd]
    rfl
  · rw [if_neg hv]
    cases canonOf k pre v <;> rfl

theorem canonOf_congr_snoc (k : String) (pre₁ pre₂ : List Enumerant)
    (e : Enumerant) (h : ∀ v, canonOf k pre₁ v = canonOf k pre₂ v) :
    ∀ v, canonOf k (pre₁ ++ [e]) v = canonOf k (pre₂ ++ [e]) v := by
  intro v
  rw [canonOf_append, canonOf_append, h v]

theorem canonEnums_congr (k : String) (es : List Enumerant) :
    ∀ pre₁ pre₂, (∀ v, canonOf k pre₁ v = canonOf k pre₂ v) →
      canonEnums k pre₁ es = canonEnums k pre₂ es := by
  induction es with
  | nil => intro pre₁ pre₂ _; rfl
  | cons e es ih =>
    intro pre₁ pre₂ h
    have he := h e.value
    simp only [canonEnums, he]
    cases canonOf k pre₂ e.value with
    | some d => exact ih _ _ (canonOf_congr_snoc k pre₁ pre₂ e h)
    | none => rw [ih _ _ (canonOf_congr_snoc k pre₁ pre₂ e h)]

theorem aliasArms_congr (k : String) (es : List Enumerant) :
    ∀ pre₁ pre₂, (∀ v, canonOf k pre₁ v = canonOf k pre₂ v) →
      aliasArms k pre₁ es = aliasArms k pre₂ es := by
  induction es with
  | nil => intro pre₁ pre₂ _; rfl
  | cons e es ih =>
    intro pre₁ pre₂ h
    have he := h e.value
    simp only [aliasArms, he]
    cases canonOf k pre₂ e.value with
    | some d => rw [ih _ _ (canonOf_congr_snoc k pre₁ pre₂ e h)]
    | none => exact ih _ _ (canonOf_congr_snoc k pre₁ pre₂ e h)

theorem fromStrArms_congr (k : String) (es : List Enumerant) :
    ∀ pre₁ pre₂, (∀ v, canonOf k pre₁ v = canonOf k pre₂ v) →
      fromStrArms k pre₁ es = fromStrArms k pre₂ es := by
  induction es with
  | nil => intro pre₁ pre₂ _; rfl
  | cons e es ih =>
    intro pre₁ pre₂ h
    have he := h e.value
    simp only [fromStrArms, he]
    cases canonOf k pre₂ e.value with
    | some d => rw [ih _ _ (canonOf_congr_snoc k pre₁ pre₂ e h)]
    | none => rw [ih _ _ (canonOf_congr_snoc k pre₁ pre₂ e h)]

theorem canonEnums_append (k : String) (A : List Enumerant) :
    ∀ pre B, canonEnums k pre (A ++ B)
      = canonEnums k pre A ++ canonEnums k (pre ++ A) B := by
  induction A with
  | nil => intro pre B; simp [canonEnums]
  | cons a A ih =>
    intro pre B
    simp only [List.cons_append, canonEnums]
    cases canonOf k pre a.value with
    | some d =>
      dsimp only
      rw [List.append_eq, ih (pre ++ [a]) B, List.append_assoc]
      rfl
    | none =>
      dsimp only
      rw [List.append_eq, ih (pre ++ [a]) B, List.append_assoc]
      rfl

theorem aliasArms_append (k : String) (A : List Enumerant) :
    ∀ pre B, aliasArms k pre (A ++ B)
      = aliasArms k pre A ++ aliasArms k (pre ++ A) B := by
  induction A with
  | nil => intro pre B; simp [aliasArms]
  | cons a A ih =>
    intro pre B
    simp only [List.cons_append, aliasArms]
    cases canonOf k pre a.value with
    | some d =>
      dsimp only
      rw [List.append_eq, ih (pre ++ [a]) B, List.append_assoc]
      rfl
    | none =>
      dsimp only
      rw [List.append_eq, ih (pre ++ [a]) B, List.append_assoc]
      rfl

theorem fromStrArms_append (k : String) (A : List Enumerant) :
    ∀ pre B, fromStrArms k pre (A ++ B)
      = fromStrArms k pre A ++ fromStrArms k (pre ++ A) B := by
  induction A with
  | nil => intro pre B; simp [fromStrArms]
  | cons a A ih =>
    intro pre B
    simp only [List.cons_append, fromStrArms]
    cases canonOf k pre a.value with
    | some d =>
      dsimp only
      rw [List.append_eq, ih (pre ++ [a]) B, List.append_assoc]
      rfl
    | none =>
      dsimp only
      rw [List.append_eq, ih (pre ++ [a]) B, List.append_assoc]
      rfl

/-- The canonical enumerants have pairwise distinct values, and none of their
values was already canonicalized by the prefix. -/
theorem canonEnums_values (k : String) (es : List Enumerant) :
    ∀ pre, ((canonEnums k pre es).map (fun e => e.value)).Nodup
      ∧ ∀ x ∈ canonEnums k pre es, canonOf k pre x.value = none := by
  induction es with
  | nil => intro pre; simp [canonEnums]
  | cons e es ih =>
    intro pre
    simp only [canonEnums]
    cases hcanon : canonOf k pre e.value with
    | some d =>
      obtain ⟨hnd, hnone⟩ := ih (pre ++ [e])
      refine ⟨hnd, fun x hx => ?_⟩
      have := hnone x hx
      rw [canonOf_append_dup k pre e (by rw [hcanon]; rfl)] at this
      exact this
    | none =>
      obtain ⟨hnd, hnone⟩ := ih (pre ++ [e])
      constructor
      · refine List.Nodup.cons ?_ hnd
        intro hmem
        obtain ⟨x, hx, hxv⟩ := List.mem_map.mp hmem
        have := hnone x hx
        rw [canonOf_append, canonOf_singleton, if_pos hxv.symm] at this
        cases hcv : canonOf k pre x.value <;> rw [hcv] at this <;> cases this
      · intro x hx
        rcases List.mem_cons.mp hx with hx | hx
        · rw [hx]
          exact hcanon
        · have h2 := hnone x hx
          rw [canonOf_append] at h2
          exact (Option.or_eq_none.mp h2).1

/-- Every canonical enumerant comes from the scanned list. -/
theorem canonEnums_subset (k : String) (es : List Enumerant) :
    ∀ pre, ∀ x ∈ canonEnums k pre es, x ∈ es := by
  induction es with
  | nil => intro pre x hx; cases hx
  | cons e es ih =>
    intro pre x hx
    simp only [canonEnums] at hx
    cases hcanon : canonOf k pre e.value <;> rw [hcanon] at hx
    · rcases List.mem_cons.mp hx with hx | hx
      · rw [hx]
        exact List.mem_cons_self e es
      · exact List.mem_cons_of_mem e (ih (pre ++ [e]) x hx)
    · exact List.mem_cons_of_mem e (ih (pre ++ [e]) x hx)

/-- Every alias arm carries the raw symbol of some scanned enumerant. -/
theorem aliasArms_subset (k : String) (es : List Enumerant) :
    ∀ pre, ∀ p ∈ aliasArms k pre es, ∃ e ∈ es, p.1 = e.symbol := by
  induction es with
  | nil => intro pre p hp; cases hp
  | cons e es ih =>
    intro pre p hp
    simp only [aliasArms] at hp
    cases hcanon : canonOf k pre e.value <;> rw [hcanon] at hp
    · obtain ⟨x, hx, hxs⟩ := ih (pre ++ [e]) p hp
      exact ⟨x, List.mem_cons_of_mem e hx, hxs⟩
    · rcases List.mem_cons.mp hp with hp | hp
      · exact ⟨e, List.mem_cons_self e es, by rw [hp]⟩
      · obtain ⟨x, hx, hxs⟩ := ih (pre ++ [e]) p hp
        exact ⟨x, List.mem_cons_of_mem e hx, hxs⟩

/-! ### Characterization of the main opcode scan

The opcode loop of `gen_spirv_header` is the same first-write-wins scan run on
`(stripped opname, opcode)` pairs, with the byte slice `&opname[2..]` as a
fallible preprocessing step.  `opRun_eq_pairRun` separates the two. -/

/-- The opcode loop on already-stripped `(name, opcode)` pairs. -/
def pairRun (s : OpState) : List (String × Nat) → OpState
  | [] => s
  | p :: ps => pairRun (opStep s p.1 p.2) ps

/-- Strip all opnames, failing when any single one fails. -/
def strippedPairs : List Instruction → Option (List (String × Nat))
  | [] => some []
  | i :: is =>
    match stripOp i.opname with
    | none => none
    | some nm => (strippedPairs is).map (fun ps => (nm, i.opcode) :: ps)

theorem opRun_eq_pairRun (insts : List Instruction) :
    ∀ s, opRun s insts = (strippedPairs insts).map (fun ps => pairRun s ps) := by
  induction insts with
  | nil => intro s; rfl
  | cons i is ih =>
    intro s
    show (match stripOp i.opname with
      | none => none
      | some nm => opRun (opStep s nm i.opcode) is) = _
    simp only [strippedPairs]
    cases stripOp i.opname with
    | none => rfl
    | some nm =>
      dsimp only
      rw [ih (opStep s nm i.opcode)]
      cases strippedPairs is <;> rfl

/-- The canonical stripped name the opcode scan assigns to `v`, on pair
lists. -/
def pcanonOf (pre : List (String × Nat)) (v : Nat) : Option String :=
  (pre.find? (fun p => p.2 == v)).map (·.1)

/-- The canonical name the main opcode table assigns to opcode `v`: the
stripped opname of the first instruction carrying `v`. -/
def opCanonOf (insts : List Instruction) (v : Nat) : Option String :=
  match insts.find? (fun i => i.opcode == v) with
  | some i => stripOp i.opname
  | none => none

/-- The pairs of the opcode scan that introduce a new discriminant. -/
def opCanonPairs (pre : List (String × Nat)) :
    List (String × Nat) → List (String × Nat)
  | [] => []
  | p :: ps =>
    match pcanonOf pre p.2 with
    | some _ => opCanonPairs (pre ++ [p]) ps
    | none => p :: opCanonPairs (pre ++ [p]) ps

/-- The alias constants contributed by the opcode scan. -/
def opAliasArms (pre : List (String × Nat)) :
    List (String × Nat) → List (String × String)
  | [] => []
  | p :: ps =>
    match pcanonOf pre p.2 with
    | some d => (p.1, d) :: opAliasArms (pre ++ [p]) ps
    | none => opAliasArms (pre ++ [p]) ps

theorem pcanonOf_append (A B : List (String × Nat)) (v : Nat) :
    pcanonOf (A ++ B) v = (pcanonOf A v).or (pcanonOf B v) := by
  unfold pcanonOf
  rw [List.find?_append]
  cases A.find? (fun p => p.2 == v) <;> simp

theorem pcanonOf_singleton (x : String × Nat) (v : Nat) :
    pcanonOf [x] v = if x.2 = v then some x.1 else none := by
  by_cases h : x.2 = v
  · simp [pcanonOf, h]
  · have hb : (x.2 == v) = false := by simpa using h
    simp [pcanonOf, List.find?, hb, h]

theorem opStep_alias (s : OpState) (nm : String) (v : Nat) (d : String)
    (h : lookupSeen s.seen_discriminator v = some d) :
    opStep s nm v = { s with aliases := s.aliases ++ [(nm, d)] } := by
  unfold opStep
  rw [h]

theorem opStep_fresh (s : OpState) (nm : String) (v : Nat)
    (h : lookupSeen s.seen_discriminator v = none) :
    opStep s nm v =
      { s with
        opcodes := s.opcodes ++ [(nm, v)]
        from_prim_list := s.from_prim_list ++ [(v, nm)]
        seen_discriminator := s.seen_discriminator ++ [(v, nm)] } := by
  unfold opStep
  rw [h]

/-- The master characterization of the opcode scan on stripped pairs. -/
theorem pairRun_char (ps : List (String × Nat)) :
    ∀ (s : OpState) (pre : List (String × Nat)),
      (∀ v, lookupSeen s.seen_discriminator v = pcanonOf pre v) →
      (∀ v, lookupSeen (pairRun s ps).seen_discriminator v
          = pcanonOf (pre ++ ps) v)
      ∧ (pairRun s ps).opcodes = s.opcodes ++ opCanonPairs pre ps
      ∧ (pairRun s ps).aliases = s.aliases ++ opAliasArms pre ps
      ∧ (pairRun s ps).from_prim_list
          = s.from_prim_list ++ (opCanonPairs pre ps).map (fun p => (p.2, p.1)) := by
  induction ps with
  | nil =>
    intro s pre hs
    simp [pairRun, opCanonPairs, opAliasArms, hs]
  | cons p ps ih =>
    intro s pre hs
    have hse := hs p.2
    have hrun : pairRun s (p :: ps) = pairRun (opStep s p.1 p.2) ps := rfl
    cases hcanon : pcanonOf pre p.2 with
    | some d =>
      rw [hcanon] at hse
      have hstep := opStep_alias s p.1 p.2 d hse
      have hs' : ∀ v, lookupSeen (opStep s p.1 p.2).seen_discriminator v
          = pcanonOf (pre ++ [p]) v := by
        intro v
        rw [hstep, pcanonOf_append, pcanonOf_singleton]
        show lookupSeen s.seen_discriminator v = _
        rw [hs v]
        by_cases hv : p.2 = v
        · rw [if_pos hv]
          subst hv
          rw [hcanon]
          rfl
        · rw [if_neg hv]
          cases pcanonOf pre v <;> rfl
      obtain ⟨h1, h2, h3, h4⟩ := ih (opStep s p.1 p.2) (pre ++ [p]) hs'
      simp only [opCanonPairs, opAliasArms, hcanon]
      refine ⟨?_, ?_, ?_, ?_⟩
      · intro v
        rw [hrun, h1 v, ← List.append_cons]
      · rw [hrun, h2, hstep]
      · rw [hrun, h3, hstep, List.append_assoc]
        rfl
      · rw [hrun, h4, hstep]
    | none =>
      rw [hcanon] at hse
      have hstep := opStep_fresh s p.1 p.2 hse
      have hs' : ∀ v, lookupSeen (opStep s p.1 p.2).seen_discriminator v
          = pcanonOf (pre ++ [p]) v := by
        intro v
        rw [hstep]
        show lookupSeen (s.seen_discriminator ++ [(p.2, p.1)]) v
          = pcanonOf (pre ++ [p]) v
        rw [lookupSeen_append, lookupSeen_singleton, pcanonOf_append,
          pcanonOf_singleton, hs v]
      obtain ⟨h1, h2, h3, h4⟩ := ih (opStep s p.1 p.2) (pre ++ [p]) hs'
      simp only [opCanonPairs, opAliasArms, hcanon]
      refine ⟨?_, ?_, ?_, ?_⟩
      · intro v
        rw [hrun, h1 v, ← List.append_cons]
      · rw [hrun, h2, hstep, List.append_assoc]
        rfl
      · rw [hrun, h3, hstep]
      · rw [hrun, h4, hstep, List.append_assoc]
        rfl

theorem pcanonOf_append_dup (pre : List (String × Nat)) (p : String × Nat)
    (h : (pcanonOf pre p.2).isSome) :
    ∀ v, pcanonOf (pre ++ [p]) v = pcanonOf pre v := by
  intro v
  rw [pcanonOf_append, pcanonOf_singleton]
  by_cases hv : p.2 = v
  · subst hv
    obtain ⟨d, hd⟩ := Option.isSome_iff_exists.mp h
    rw [hd]
    rfl
  · rw [if_neg hv]
    cases pcanonOf pre v <;> rfl

/-- The discriminants of the opcode scan have pairwise distinct opcodes. -/
theorem opCanonPairs_values (ps : List (String × Nat)) :
    ∀ pre, ((opCanonPairs pre ps).map (fun p => p.2)).Nodup
      ∧ ∀ x ∈ opCanonPairs pre ps, pcanonOf pre x.2 = none := by
  induction ps with
  | nil => intro pre; simp [opCanonPairs]
  | cons p ps ih =>
    intro pre
    simp only [opCanonPairs]
    cases hcanon : pcanonOf pre p.2 with
    | some d =>
      obtain ⟨hnd, hnone⟩ := ih (pre ++ [p])
      refine ⟨hnd, fun x hx => ?_⟩
      have h2 := hnone x hx
      rw [pcanonOf_append_dup pre p (by rw [hcanon]; rfl)] at h2
      exact h2
    | none =>
      obtain ⟨hnd, hnone⟩ := ih (pre ++ [p])
      constructor
      · refine List.Nodup.cons ?_ hnd
        intro hmem
        obtain ⟨x, hx, hxv⟩ := List.mem_map.mp hmem
        have h2 := hnone x hx
        rw [pcanonOf_append, pcanonOf_singleton, if_pos hxv.symm] at h2
        cases hcv : pcanonOf pre x.2 <;> rw [hcv] at h2 <;> cases h2
      · intro x hx
        rcases List.mem_cons.mp hx with hx | hx
        · rw [hx]
          exact hcanon
        · have h2 := hnone x hx
          rw [pcanonOf_append] at h2
          exact (Option.or_eq_none.mp h2).1

theorem opAliasArms_append (A : List (String × Nat)) :
    ∀ pre B, opAliasArms pre (A ++ B)
      = opAliasArms pre A ++ opAliasArms (pre ++ A) B := by
  induction A with
  | nil => intro pre B; simp [opAliasArms]
  | cons a A ih =>
    intro pre B
    simp only [List.cons_append, opAliasArms]
    cases pcanonOf pre a.2 with
    | some d =>
      dsimp only
      rw [List.append_eq, ih (pre ++ [a]) B, List.append_assoc]
      rfl
    | none =>
      dsimp only
      rw [List.append_eq, ih (pre ++ [a]) B, List.append_assoc]
      rfl

/-- Splitting `strippedPairs` on an append: both halves must strip, and the results
concatenate. -/
theorem strippedPairs_append (A : List Instruction) :
    ∀ B, strippedPairs (A ++ B)
      = (strippedPairs A).bind (fun pa => (strippedPairs B).map (fun pb => pa ++ pb)) := by
  induction A with
  | nil =>
    intro B
    simp only [List.nil_append, strippedPairs, Option.bind]
    cases strippedPairs B <;> rfl
  | cons i A ih =>
    intro B
    simp only [List.cons_append, strippedPairs]
    cases stripOp i.opname with
    | none => rfl
    | some nm =>
      dsimp only
      rw [List.append_eq, ih B]
      cases strippedPairs A with
      | none => rfl
      | some pa =>
        cases strippedPairs B <;> rfl

/-- On a successfully stripped instruction list, the pair-level canonical map
agrees with the instruction-level one. -/
theorem strippedPairs_pcanonOf (insts : List Instruction) :
    ∀ ps, strippedPairs insts = some ps →
      ∀ v, pcanonOf ps v = opCanonOf insts v := by
  induction insts with
  | nil =>
    intro ps hps v
    cases hps
    rfl
  | cons i is ih =>
    intro ps hps v
    simp only [strippedPairs] at hps
    cases hnm : stripOp i.opname <;> rw [hnm] at hps
    · cases hps
    · cases hrest : strippedPairs is <;> rw [hrest] at hps
      · cases hps
      · cases hps
        rename_i nm rest
        by_cases hv : i.opcode = v
        · simp only [pcanonOf, opCanonOf]
          have hb : (i.opcode == v) = true := by simpa using hv
          simp only [List.find?, hb]
          exact hnm.symm
        · have hbp : (((nm, i.opcode) : String × Nat).2 == v) = false := by
            simpa using hv
          have hbi : (i.opcode == v) = false := by simpa using hv
          have hstep : pcanonOf ((nm, i.opcode) :: rest) v = pcanonOf rest v := by
            simp only [pcanonOf, List.find?, hbp]
          rw [hstep, ih rest hrest v]
          simp only [opCanonOf, List.find?, hbi]

/-- On a successfully stripped instruction list, every single opname strips. -/
theorem strippedPairs_isSome_elem (insts : List Instruction) :
    ∀ ps, strippedPairs insts = some ps →
      ∀ i ∈ insts, (stripOp i.opname).isSome := by
  induction insts with
  | nil => intro ps _ i hi; cases hi
  | cons j is ih =>
    intro ps hps i hi
    simp only [strippedPairs] at hps
    cases hnm : stripOp j.opname <;> rw [hnm] at hps
    · cases hps
    · cases hrest : strippedPairs is <;> rw [hrest] at hps
      · cases hps
      · rcases List.mem_cons.mp hi with hi | hi
        · rw [hi, hnm]
          rfl
        · exact ih _ hrest i hi

/-- The opcode loop succeeds exactly when every opname slices. -/
theorem opRun_isSome (insts : List Instruction) :
    ∀ s, (opRun s insts).isSome
      ↔ ∀ i ∈ insts, (stripOp i.opname).isSome := by
  induction insts with
  | nil => intro s; simp [opRun]
  | cons i is ih =>
    intro s
    show (match stripOp i.opname with
      | none => (none : Option OpState)
      | some nm => opRun (opStep s nm i.opcode) is).isSome ↔ _
    cases hnm : stripOp i.opname with
    | none =>
      simp only [Option.isSome_none]
      constructor
      · intro h
        cases h
      · intro h
        have := h i (List.mem_cons_self i is)
        rw [hnm] at this
        cases this
    | some nm =>
      rw [ih (opStep s nm i.opcode)]
      constructor
      · intro h j hj
        rcases List.mem_cons.mp hj with hj | hj
        · rw [hj, hnm]
          rfl
        · exact h j hj
      · intro h j hj
        exact h j (List.mem_cons_of_mem i hj)

/-! ### Clause-map lemmas -/

/-- Lookup (`BTreeMap::get`) on a clause map, keyed by exact (structural) equality of the
key sequence. -/
def lookupClause {α : Type} [DecidableEq α] (m : List (α × List String))
    (key : α) : Option (List String) :=
  (m.find? (fun p => decide (p.1 = key))).map (·.2)

theorem lookupClause_insert_self {α : Type} [DecidableEq α] (key : α)
    (x : String) :
    ∀ m, lookupClause (insertClause key x m) key
      = some ((lookupClause m key).getD [] ++ [x]) := by
  intro m
  induction m with
  | nil => simp [insertClause, lookupClause]
  | cons p m ih =>
    obtain ⟨k0, xs⟩ := p
    by_cases h : key = k0
    · subst h
      simp [insertClause, lookupClause]
    · have hb : (decide ((k0, xs).1 = key)) = false := by
        simp
        exact fun hk => h hk.symm
      simp only [insertClause, if_neg h]
      show lookupClause ((k0, xs) :: insertClause key x m) key = _
      simp only [lookupClause, List.find?, hb] at *
      exact ih

theorem lookupClause_insert_of_ne {α : Type} [DecidableEq α] (key key' : α)
    (x : String) (h : key' ≠ key) :
    ∀ m, lookupClause (insertClause key x m) key' = lookupClause m key' := by
  intro m
  induction m with
  | nil =>
    have hb : (decide (((key, [x]) : α × List String).1 = key')) = false := by
      simp
      exact fun hk => h hk.symm
    simp [insertClause, lookupClause, List.find?, hb]
  | cons p m ih =>
    obtain ⟨k0, xs⟩ := p
    by_cases hk : key = k0
    · subst hk
      have hb : (decide (((key, xs ++ [x]) : α × List String).1 = key')) = false := by
        simp
        exact fun hk2 => h hk2.symm
      have hb2 : (decide (((key, xs) : α × List String).1 = key')) = false := by
        simp
        exact fun hk2 => h hk2.symm
      simp [insertClause, lookupClause, List.find?, hb, hb2]
    · simp only [insertClause, if_neg hk]
      by_cases hk' : k0 = key'
      · subst hk'
        simp [lookupClause, List.find?]
      · have hb : (decide (((k0, xs) : α × List String).1 = key')) = false := by
          simp [hk']
        simp only [lookupClause, List.find?, hb] at *
        exact ih

/-- Membership in a clause group survives further insertions. -/
theorem foldl_insertClause_mono {α : Type} [DecidableEq α]
    (keyf : Enumerant → α) (valf : Enumerant → String) (ces : List Enumerant) :
    ∀ (m : List (α × List String)) (key : α) (vs : List String) (x : String),
      lookupClause m key = some vs → x ∈ vs →
      ∃ vs', lookupClause
          (ces.foldl (fun m e => insertClause (keyf e) (valf e) m) m) key
        = some vs' ∧ x ∈ vs' := by
  induction ces with
  | nil => intro m key vs x h hx; exact ⟨vs, h, hx⟩
  | cons e ces ih =>
    intro m key vs x h hx
    simp only [List.foldl_cons]
    by_cases hk : key = keyf e
    · have hself : lookupClause (insertClause (keyf e) (valf e) m) key
          = some ((lookupClause m (keyf e)).getD [] ++ [valf e]) := by
        rw [hk]
        exact lookupClause_insert_self (keyf e) (valf e) m
      refine ih (insertClause (keyf e) (valf e) m) key _ x hself ?_
      rw [← hk, h]
      exact List.mem_append_left _ hx
    · refine ih (insertClause (keyf e) (valf e) m) key vs x ?_ hx
      rw [lookupClause_insert_of_ne (keyf e) key (valf e) hk m]
      exact h

/-- Every enumerant folded into a clause map lands in the group of its own
key. -/
theorem foldl_insertClause_mem {α : Type} [DecidableEq α]
    (keyf : Enumerant → α) (valf : Enumerant → String) (ces : List Enumerant) :
    ∀ (m : List (α × List String)) (e : Enumerant), e ∈ ces →
      ∃ vs, lookupClause
          (ces.foldl (fun m e => insertClause (keyf e) (valf e) m) m) (keyf e)
        = some vs ∧ valf e ∈ vs := by
  induction ces with
  | nil => intro m e he; cases he
  | cons c ces ih =>
    intro m e he
    simp only [List.foldl_cons]
    rcases List.mem_cons.mp he with he | he
    · subst he
      exact foldl_insertClause_mono keyf valf ces _ (keyf e) _ (valf e)
        (lookupClause_insert_self (keyf e) (valf e) m)
        (List.mem_append_right _ (List.mem_singleton.mpr rfl))
    · exact ih (insertClause (keyf c) (valf c) m) e he

/-! ### Numeric and string conversion lemmas -/

/-- The `from_i64` arms of a value enum resolve a value to its canonical
identifier, relative to a prefix that does not already own the value. -/
theorem fromPrim_find (k : String) (es : List Enumerant) :
    ∀ pre D, canonOf k pre D = none →
      (((canonEnums k pre es).map (fun e => (e.value, canonName k e))).find?
          (fun a => a.1 == D)).map (fun a => a.2)
        = canonOf k (pre ++ es) D := by
  induction es with
  | nil =>
    intro pre D h
    simp only [canonEnums, List.map_nil, List.find?_nil, Option.map_none,
      List.append_nil]
    exact h.symm
  | cons e es ih =>
    intro pre D h
    rw [List.append_cons]
    simp only [canonEnums]
    cases hc : canonOf k pre e.value with
    | some d =>
      dsimp only
      have hD : canonOf k (pre ++ [e]) D = none := by
        rw [canonOf_append, h, canonOf_singleton]
        by_cases hv : e.value = D
        · exfalso
          rw [hv, h] at hc
          cases hc
        · rw [if_neg hv]
          rfl
      exact ih (pre ++ [e]) D hD
    | none =>
      dsimp only
      by_cases hv : e.value = D
      · have hb : (e.value == D) = true := by simpa using hv
        rw [List.map_cons]
        simp only [List.find?, hb]
        rw [canonOf_append, canonOf_append, h, canonOf_singleton, if_pos hv]
        rfl
      · have hb : (e.value == D) = false := by simpa using hv
        rw [List.map_cons]
        simp only [List.find?, hb]
        have hD : canonOf k (pre ++ [e]) D = none := by
          rw [canonOf_append, h, canonOf_singleton, if_neg hv]
          rfl
        exact ih (pre ++ [e]) D hD

/-- Soundness of the `from_str` arms: every arm's target is a canonical
identifier of the scanned kind, and every arm's key is either a canonical
identifier or the raw symbol of a later duplicate (an alias). -/
theorem fromStrArms_sound (k : String) (es : List Enumerant) :
    ∀ pre full, full = pre ++ es →
      ∀ p ∈ fromStrArms k pre es,
        (∃ v, canonOf k full v = some p.2)
        ∧ ((∃ v, canonOf k full v = some p.1)
          ∨ (∃ A e B, full = A ++ e :: B ∧ e.symbol = p.1
              ∧ ∃ e₀ ∈ A, e₀.value = e.value)) := by
  induction es with
  | nil => intro pre full _ p hp; cases hp
  | cons e es ih =>
    intro pre full hfull p hp
    have hfull' : full = (pre ++ [e]) ++ es := by
      rw [hfull, List.append_cons]
    simp only [fromStrArms] at hp
    cases hc : canonOf k pre e.value <;> rw [hc] at hp
    · rcases List.mem_cons.mp hp with hp | hp
      · subst hp
        constructor
        · refine ⟨e.value, ?_⟩
          rw [hfull, canonOf_append, hc]
          show canonOf k (e :: es) e.value = some (canonName k e)
          simp [canonOf, List.find?]
        · left
          refine ⟨e.value, ?_⟩
          rw [hfull, canonOf_append, hc]
          show canonOf k (e :: es) e.value = some (canonName k e)
          simp [canonOf, List.find?]
      · exact ih (pre ++ [e]) full hfull' p hp
    · rcases List.mem_cons.mp hp with hp | hp
      · subst hp
        obtain ⟨e₀, hfind, hname⟩ := Option.map_eq_some'.mp hc
        have he₀ : e₀ ∈ pre := List.mem_of_find?_eq_some hfind
        have hv₀ : e₀.value = e.value := by
          have := List.find?_some hfind
          simpa using this
        constructor
        · refine ⟨e.value, ?_⟩
          rw [hfull, canonOf_append, hc]
          rfl
        · right
          exact ⟨pre, e, es, hfull, rfl, e₀, he₀, hv₀⟩
      · exact ih (pre ++ [e]) full hfull' p hp

/-! ### Bit-enum lemmas -/

/-- Characterization of the bit-enum loop: the flag constants are one per
enumerant, and the per-flag operand arms and the additional-operands list are
one per enumerant with a non-empty parameter list, in grammar order. -/
theorem bitLocals_char (shouty : String → String) (es : List Enumerant) :
    ∀ acc, ((es.foldl (bitStep shouty) acc).elements
        = acc.elements ++ es.map (fun e => (bitSymbol shouty e.symbol, e.value)))
      ∧ ((es.foldl (bitStep shouty) acc).operands
        = acc.operands ++ (es.filter (fun e => !e.parameters.isEmpty)).map
            (fun e => (bitSymbol shouty e.symbol, e.value,
              e.parameters.map operandOf)))
      ∧ ((es.foldl (bitStep shouty) acc).additional_operands_list
        = acc.additional_operands_list
          ++ (es.filter (fun e => !e.parameters.isEmpty)).map
              (fun e => bitSymbol shouty e.symbol)) := by
  induction es with
  | nil => intro acc; simp
  | cons e es ih =>
    intro acc
    simp only [List.foldl_cons, List.map_cons, List.filter_cons]
    obtain ⟨h1, h2, h3⟩ := ih (bitStep shouty acc e)
    by_cases hp : e.parameters.isEmpty
    · have hstep : bitStep shouty acc e =
          { acc with
            elements := acc.elements
              ++ [(bitSymbol shouty e.symbol, e.value)] } := by
        unfold bitStep
        rw [if_pos hp]
      have hb : (!e.parameters.isEmpty) = false := by simp [hp]
      rw [hb]
      refine ⟨?_, ?_, ?_⟩
      · rw [h1, hstep, List.append_assoc]
        rfl
      · rw [h2, hstep]
        rfl
      · rw [h3, hstep]
        rfl
    · have hstep : bitStep shouty acc e =
          { acc with
            elements := acc.elements
              ++ [(bitSymbol shouty e.symbol, e.value)]
            additional_operands_list := acc.additional_operands_list
              ++ [bitSymbol shouty e.symbol]
            operands := acc.operands
              ++ [(bitSymbol shouty e.symbol, e.value,
                  e.parameters.map operandOf)] } := by
        unfold bitStep
        rw [if_neg hp]
      have hb : (!e.parameters.isEmpty) = true := by simp [hp]
      rw [hb]
      refine ⟨?_, ?_, ?_⟩
      · rw [h1, hstep, List.append_assoc]
        rfl
      · rw [h2, hstep, List.append_assoc]
        rfl
      · rw [h3, hstep, List.append_assoc]
        rfl

/-- The per-flag lookup finds the arm of a flag whose symbol occurs once, for
any flag-set containing the flag's bits. -/
theorem flagOperandLookup_of_mem
    (cases0 : List (String × Nat × List LogicalOperand))
    (c : String × Nat × List LogicalOperand) (hc : c ∈ cases0)
    (hnd : (cases0.map (fun x => x.1)).Nodup) (v : Nat)
    (hv : containsBits v c.2.1 = true) :
    flagOperandLookup cases0 v c.1 = some c.2.2 := by
  induction cases0 with
  | nil => cases hc
  | cons x xs ih =>
    rcases List.mem_cons.mp hc with hc | hc
    · subst hc
      unfold flagOperandLookup
      have hb : (c.1 == c.1 && containsBits v c.2.1) = true := by
        simp [hv]
      simp only [List.find?, hb]
      rfl
    · have hx1 : x.1 ≠ c.1 := by
        intro hEq
        have hxm : c.1 ∈ xs.map (fun y => y.1) :=
          List.mem_map.mpr ⟨c, hc, rfl⟩
        rw [← hEq] at hxm
        exact (List.nodup_cons.mp hnd).1 hxm
      have hb : (x.1 == c.1 && containsBits v x.2.1) = false := by
        simp [hx1]
      unfold flagOperandLookup
      simp only [List.find?, hb]
      exact ih hc (List.nodup_cons.mp hnd).2

/-! ### Byte-boundary lemmas for the opcode prefix slice -/

/-- Total UTF-8 byte length of a character list. -/
def utf8Total (cs : List Char) : Nat :=
  (cs.map Char.utf8Size).sum

/-- The string has a character boundary exactly at byte index 2 (in particular
it is at least two bytes long). -/
def boundaryAt2 (s : String) : Prop :=
  ∃ pre suf, s.toList = pre ++ suf ∧ utf8Total pre = 2

theorem byteDrop_isSome (cs : List Char) :
    ∀ n, (byteDrop n cs).isSome = true
      ↔ ∃ pre suf, cs = pre ++ suf ∧ utf8Total pre = n := by
  induction cs with
  | nil =>
    intro n
    cases n with
    | zero =>
      constructor
      · intro _
        exact ⟨[], [], rfl, rfl⟩
      · intro _
        rfl
    | succ m =>
      constructor
      · intro h
        simp [byteDrop] at h
      · rintro ⟨pre, suf, hps, htot⟩
        obtain ⟨hp, _⟩ := List.append_eq_nil.mp hps.symm
        rw [hp] at htot
        simp [utf8Total] at htot
  | cons c cs ih =>
    intro n
    cases n with
    | zero =>
      constructor
      · intro _
        exact ⟨[], c :: cs, rfl, rfl⟩
      · intro _
        rfl
    | succ m =>
      have hbd : byteDrop (m + 1) (c :: cs)
          = if c.utf8Size ≤ m + 1 then byteDrop (m + 1 - c.utf8Size) cs
            else none := rfl
      rw [hbd]
      by_cases hsz : c.utf8Size ≤ m + 1
      · rw [if_pos hsz, ih (m + 1 - c.utf8Size)]
        constructor
        · rintro ⟨pre, suf, hps, htot⟩
          refine ⟨c :: pre, suf, by simp [hps], ?_⟩
          simp only [utf8Total, List.map_cons, List.sum_cons] at htot ⊢
          omega
        · rintro ⟨pre, suf, hps, htot⟩
          cases pre with
          | nil => simp [utf8Total] at htot
          | cons p pre =>
            injection hps with h1 h2
            subst h1
            refine ⟨pre, suf, h2, ?_⟩
            simp only [utf8Total, List.map_cons, List.sum_cons] at htot ⊢
            omega
      · rw [if_neg hsz]
        constructor
        · intro h
          simp at h
        · rintro ⟨pre, suf, hps, htot⟩
          exfalso
          cases pre with
          | nil => simp [utf8Total] at htot
          | cons p pre =>
            injection hps with h1 h2
            subst h1
            simp only [utf8Total, List.map_cons, List.sum_cons] at htot
            omega

theorem stripOp_isSome (s : String) :
    (stripOp s).isSome = true ↔ boundaryAt2 s := by
  unfold stripOp boundaryAt2
  rw [← byteDrop_isSome s.toList 2]
  cases byteDrop 2 s.toList <;> simp

theorem asU32_natCast (D : Nat) (hD : D < 2 ^ 32) : asU32 ((D : Nat) : Int) = D := by
  unfold asU32
  rw [Int.emod_eq_of_lt (by positivity) (by exact_mod_cast hD)]
  exact Int.toNat_natCast D

/-- Whether `gen_operand_kind` emits a declaration for this kind (its category
is BitEnum or ValueEnum). -/
def isGenerated (k : OperandKind) : Bool :=
  match k.category with
  | Category.BitEnum => true
  | Category.ValueEnum => true
  | Category.Other => false

/-- The declaration `gen_operand_kind` emits for a generated kind. -/
def declOf (shouty : String → String) (k : OperandKind) : Decl :=
  match k.category with
  | Category.BitEnum => gen_bit_enum_operand_kind shouty k
  | _ => gen_value_enum_operand_kind k

/-- Skipping the non-generated categories leaves one declaration per generated
kind, in order and with no gap. -/
theorem filterMap_eq_filter_map (shouty : String → String)
    (l : List OperandKind) :
    l.filterMap (gen_operand_kind shouty)
      = (l.filter isGenerated).map (declOf shouty) := by
  induction l with
  | nil => rfl
  | cons k l ih =>
    cases hk : k.category <;>
      simp [List.filterMap_cons, List.filter_cons, gen_operand_kind,
        isGenerated, declOf, hk, ih]

/-! ### Concrete inputs used by witnesses and counterexamples -/

/-- The spec's example value-enum kind with enumerants `{A=0, B=1, C=1}`. -/
def exABC : OperandKind :=
  ⟨Category.ValueEnum, "K",
    [⟨"A", 0, [], [], []⟩, ⟨"B", 1, [], [], []⟩, ⟨"C", 1, [], [], []⟩]⟩

/-- A "Dim" kind whose second enumerant duplicates the first one's value. -/
def dimDup : OperandKind :=
  ⟨Category.ValueEnum, "Dim", [⟨"1D", 0, [], [], []⟩, ⟨"2D", 0, [], [], []⟩]⟩

/-- Two canonical enumerants with equal capabilities but distinct extensions. -/
def capDup : OperandKind :=
  ⟨Category.ValueEnum, "K",
    [⟨"E1", 0, ["C"], ["X"], []⟩, ⟨"E2", 1, ["C"], ["Y"], []⟩]⟩

/-- A bit enum whose `ALIGNED` flag carries one extra operand. -/
def bitP1 : OperandKind :=
  ⟨Category.BitEnum, "MemoryAccess",
    [⟨"NONE", 0, [], [], []⟩,
     ⟨"ALIGNED", 2, [], [], [⟨"LiteralInteger", Quantifier.One⟩]⟩]⟩

/-- The same bit enum with a different operand attached to `ALIGNED`. -/
def bitP2 : OperandKind :=
  ⟨Category.BitEnum, "MemoryAccess",
    [⟨"NONE", 0, [], [], []⟩,
     ⟨"ALIGNED", 2, [], [], [⟨"IdRef", Quantifier.One⟩]⟩]⟩

/-- An extended-instruction-set table with a duplicated opcode. -/
def extDup : ExtInstSetGrammar :=
  ⟨[⟨"A", 5⟩, ⟨"B", 5⟩]⟩

/-- A small complete grammar: one ValueEnum kind, one skipped kind, one BitEnum
kind, one instruction. -/
def exG : Grammar :=
  ⟨119734787, 1, 5, 4,
    [exABC, ⟨Category.Other, "IdRef", []⟩, bitP1],
    [⟨"OpNop", 0⟩]⟩

/-! ### Claims -/

/-- C9: the generated `from_i64` truncates its argument to the low 32 bits
before matching, so `from_i64 n = from_i64 (n mod 2^32)` for every `n`; and
`from_u64 n` always equals `from_i64` of `n` reinterpreted as `i64`. -/
theorem claim_C9_from_i64_truncates (g : OperandKind) (n : Int) (m : Nat) :
    from_i64 (veScan g).from_prim_list n
      = from_i64 (veScan g).from_prim_list (n % 2 ^ 32)
    ∧ from_u64 (veScan g).from_prim_list m
      = from_i64 (veScan g).from_prim_list (u64AsI64 m) := by
  constructor
  · have h : asU32 (n % 2 ^ 32) = asU32 n := by
      unfold asU32
      rw [Int.emod_emod_of_dvd n (dvd_refl _)]
    unfold from_i64
    rw [h]
  · rfl

/-- C2: for every ValueEnum operand kind, `from_number` (the generated
`from_i64`) returns the canonical symbol of every discriminant value and `none`
for every `u32` value not equal to any discriminant. -/
theorem claim_C2_from_number_roundtrip (g : OperandKind) (D : Nat)
    (hD : D < 2 ^ 32) :
    from_i64 (veScan g).from_prim_list ((D : Nat) : Int)
      = canonOf g.kind g.enumerants D := by
  have hchar := (veScan_char g).2.2.1
  unfold from_i64
  rw [asU32_natCast D hD, hchar]
  have h := fromPrim_find g.kind g.enumerants [] D rfl
  simpa using h

/-- Witness for C2 at the spec's example `{A=0, B=1, C=1}` and the
non-discriminant value 2. -/
theorem claim_C2_witness :
    ((2 : Nat) < 2 ^ 32
      ∧ from_i64 (veScan exABC).from_prim_list ((2 : Nat) : Int)
        = canonOf exABC.kind exABC.enumerants 2)
    ∧ from_i64 (veScan exABC).from_prim_list ((2 : Nat) : Int) = none := by
  refine ⟨⟨by decide, claim_C2_from_number_roundtrip exABC 2 (by decide)⟩, ?_⟩
  decide

/-- C10: `gen_spirv_header` is total exactly on grammars in which every
instruction's opname has a character boundary at byte index 2 (in particular is
at least two bytes long); on any shorter or non-boundary opname the slice
`opname[2..]` panics, modelled as `none`. -/
theorem claim_C10_opname_slice (shouty : String → String) (g : Grammar) :
    ((gen_spirv_header shouty g).isSome = true
      ↔ ∀ inst ∈ g.instructions, boundaryAt2 inst.opname)
    ∧ (∀ s, boundaryAt2 s → 2 ≤ utf8Total s.toList) := by
  constructor
  · have h1 : (gen_spirv_header shouty g).isSome
        = (opRun opInit g.instructions).isSome := by
      unfold gen_spirv_header
      cases opRun opInit g.instructions <;> rfl
    rw [h1]
    have h2 := opRun_isSome g.instructions opInit
    constructor
    · intro h i hi
      exact (stripOp_isSome i.opname).mp (h2.mp h i hi)
    · intro h
      exact h2.mpr fun i hi => (stripOp_isSome i.opname).mpr (h i hi)
  · rintro s ⟨pre, suf, hps, htot⟩
    rw [hps]
    simp only [utf8Total, List.map_append, List.sum_append] at htot ⊢
    omega

/-- Counterexample to C4: in an extended table, two instructions sharing opcode
5 are both emitted as discriminants (duplicate values) and no alias constant is
emitted at all. -/
theorem claim_C4_counterexample :
    gen_opcodes "G" extDup
      = Decl.opEnum "G" [("A", 5), ("B", 5)] [] [(5, "A"), (5, "B")]
    ∧ ¬ ((([("A", 5), ("B", 5)] : List (String × Nat)).map Prod.snd).Nodup) := by
  constructor
  · rfl
  · decide

/-- C4 (amended): extended-instruction-set tables perform no discriminator
aliasing at all: every instruction becomes an enum variant at its opcode even
when opcodes collide, the table emits no alias constants, and the numeric
round-trip resolves a duplicated opcode to the first instruction carrying
it. -/
theorem claim_C4_ext_no_aliasing (op : String) (g : ExtInstSetGrammar)
    (D : Nat) (hD : D < 2 ^ 32) :
    gen_opcodes op g
      = Decl.opEnum op (g.instructions.map fun i => (i.opname, i.opcode)) []
          (g.instructions.map fun i => (i.opcode, i.opname))
    ∧ from_i64 (g.instructions.map fun i => (i.opcode, i.opname))
          ((D : Nat) : Int)
      = (g.instructions.find? (fun i => i.opcode == D)).map
          (fun i => i.opname) := by
  constructor
  · rfl
  · unfold from_i64
    rw [asU32_natCast D hD]
    have hcomp : ((fun (a : Nat × String) => a.1 == D)
        ∘ (fun (i : Instruction) => (i.opcode, i.opname)))
        = fun (i : Instruction) => i.opcode == D := rfl
    rw [List.find?_map, hcomp]
    cases g.instructions.find? (fun i => i.opcode == D) <;> rfl

/-- Witness for C4 at the duplicated extended table and value 5: the round trip
resolves to the first instruction `A`. -/
theorem claim_C4_witness :
    gen_opcodes "G" extDup
      = Decl.opEnum "G" (extDup.instructions.map fun i => (i.opname, i.opcode))
          [] (extDup.instructions.map fun i => (i.opcode, i.opname))
    ∧ from_i64 (extDup.instructions.map fun i => (i.opcode, i.opname))
          ((5 : Nat) : Int)
      = (extDup.instructions.find? (fun i => i.opcode == 5)).map
          (fun i => i.opname) :=
  claim_C4_ext_no_aliasing "G" extDup 5 (by decide)

/-- Counterexample to C5: in the "Dim" kind, a later enumerant whose value
duplicates an earlier one is emitted as an alias under its raw, unprefixed
symbol: the alias identifier is `2D`, not `Dim2D`, and it starts with a
digit. -/
theorem claim_C5_counterexample :
    (veScan dimDup).aliases = [("2D", "Dim1D")]
    ∧ ("2D" : String) ≠ "Dim" ++ "2D"
    ∧ "2D".toList.head? = some '2'
    ∧ ('2').isDigit = true := by
  refine ⟨rfl, by decide, rfl, rfl⟩

/-- C5 (amended): in the "Dim" kind, every enumerant that introduces a new
discriminant is canonicalized with the kind name `Dim` prepended; an enumerant
whose value is already taken keeps its raw symbol, unprefixed, as an alias
constant name. -/
theorem claim_C5_dim_prefixing (g : OperandKind) (hk : g.kind = "Dim") :
    (∀ p ∈ (veScan g).enumerants,
      ∃ e ∈ g.enumerants, e.value = p.2 ∧ p.1 = "Dim" ++ e.symbol)
    ∧ (∀ p ∈ (veScan g).aliases, ∃ e ∈ g.enumerants, p.1 = e.symbol) := by
  constructor
  · intro p hp
    rw [(veScan_char g).2.1] at hp
    obtain ⟨x, hx, hpx⟩ := List.mem_map.mp hp
    refine ⟨x, canonEnums_subset g.kind g.enumerants [] x hx, ?_, ?_⟩
    · rw [← hpx]
    · rw [← hpx]
      show canonName g.kind x = "Dim" ++ x.symbol
      simp [canonName, hk]
  · intro p hp
    rw [(veScan_char g).2.2.2.1] at hp
    exact aliasArms_subset g.kind g.enumerants [] p hp

/-- Witness for C5 at the concrete "Dim" kind: the canonical variant `Dim1D`
comes from the enumerant `1D` with the kind name prepended. -/
theorem claim_C5_witness :
    ∃ e ∈ dimDup.enumerants, e.value = 0 ∧ "Dim1D" = "Dim" ++ e.symbol :=
  (claim_C5_dim_prefixing dimDup rfl).1 ("Dim1D", 0) (by decide)

/-- Counterexample to C8: two canonical enumerants with distinct
`(capabilities, extensions)` tuples land in one and the same capability group,
so the grouping key is not the tuple. -/
theorem claim_C8_counterexample :
    (veScan capDup).capability_clauses = [(["C"], ["E1", "E2"])]
    ∧ capDup.enumerants.map (fun e => (e.capabilities, e.extensions))
        = [(["C"], ["X"]), (["C"], ["Y"])]
    ∧ ((["C"], ["X"]) : List String × List String) ≠ (["C"], ["Y"]) := by
  refine ⟨rfl, rfl, by decide⟩

/-- C8 (amended): canonical enumerants are grouped separately by their
capability sequence and by their extension sequence (two maps, not one
tuple-keyed map); each grouping key is the literal sequence compared by exact
list equality, so distinct orderings of the same set are distinct keys. -/
theorem claim_C8_clause_grouping (g : OperandKind) (A : List Enumerant)
    (e : Enumerant) (B : List Enumerant) (hsplit : g.enumerants = A ++ e :: B)
    (hfirst : ∀ x ∈ A, x.value ≠ e.value) :
    (∃ vs, lookupClause (veScan g).capability_clauses e.capabilities = some vs
      ∧ canonName g.kind e ∈ vs)
    ∧ (∃ vs, lookupClause (veScan g).extension_clauses e.extensions = some vs
      ∧ canonName g.kind e ∈ vs) := by
  have hmem : e ∈ canonEnums g.kind [] g.enumerants := by
    rw [hsplit, canonEnums_append g.kind A [] (e :: B)]
    refine List.mem_append_right _ ?_
    have hA : canonOf g.kind ([] ++ A) e.value = none := by
      simp only [List.nil_append]
      unfold canonOf
      rw [List.find?_eq_none.mpr]
      · rfl
      · intro x hx
        simpa using hfirst x hx
    show e ∈ canonEnums g.kind ([] ++ A) (e :: B)
    simp only [canonEnums, hA]
    exact List.mem_cons_self _ _
  constructor
  · rw [(veScan_char g).2.2.2.2.2.1]
    have h := foldl_insertClause_mem (fun e => e.capabilities)
      (canonName g.kind) (canonEnums g.kind [] g.enumerants) [] e hmem
    simpa [buildCapClauses] using h
  · rw [(veScan_char g).2.2.2.2.2.2.1]
    have h := foldl_insertClause_mem (fun e => e.extensions)
      (canonName g.kind) (canonEnums g.kind [] g.enumerants) [] e hmem
    simpa [buildExtClauses] using h

/-- Witness for C8: in the concrete kind, `E1` is grouped under its literal
capability sequence. -/
theorem claim_C8_witness :
    ∃ vs, lookupClause (veScan capDup).capability_clauses ["C"] = some vs
      ∧ "E1" ∈ vs := by
  have h := (claim_C8_clause_grouping capDup [] ⟨"E1", 0, ["C"], ["X"], []⟩
    [⟨"E2", 1, ["C"], ["Y"], []⟩] rfl (by intro x hx; cases hx)).1
  obtain ⟨vs, hvs, hmem⟩ := h
  refine ⟨vs, hvs, ?_⟩
  simpa [canonName] using hmem

/-- Counterexample to C3: two bit-enum grammars that attach different operand
lists to the `ALIGNED` flag produce identical generated output, so the
generated output contains no per-flag operand lookup (no function of the
output can return the attached operand list); the match cases built internally
do differ. -/
theorem claim_C3_counterexample :
    gen_bit_enum_operand_kind id bitP1 = gen_bit_enum_operand_kind id bitP2
    ∧ bitP1.enumerants ≠ bitP2.enumerants
    ∧ (bitLocals id bitP1).operands ≠ (bitLocals id bitP2).operands := by
  refine ⟨rfl, by decide, by decide⟩

/-- C3 (amended): the bit-enum generator builds one per-flag operand match case
for every enumerant with a non-empty parameter list, and resolving a flag
symbol against those cases with a bit-containment (subset, not equality) test
returns the operand list attached to that flag; but the emitted declaration
consists of the flag constants only and drops the operand cases. -/
theorem claim_C3_flag_operand_cases (shouty : String → String)
    (g : OperandKind)
    (hnd : ((bitLocals shouty g).operands.map (fun c => c.1)).Nodup)
    (e : Enumerant) (he : e ∈ g.enumerants)
    (hp : e.parameters.isEmpty = false)
    (v : Nat) (hv : containsBits v e.value = true) :
    ((bitLocals shouty g).operands
      = (g.enumerants.filter (fun x => !x.parameters.isEmpty)).map
          (fun x => (bitSymbol shouty x.symbol, x.value,
            x.parameters.map operandOf)))
    ∧ flagOperandLookup (bitLocals shouty g).operands v
        (bitSymbol shouty e.symbol)
      = some (e.parameters.map operandOf)
    ∧ gen_bit_enum_operand_kind shouty g
      = Decl.bitEnum g.kind
          (g.enumerants.map (fun x => (bitSymbol shouty x.symbol, x.value))) := by
  obtain ⟨h1, h2, h3⟩ := bitLocals_char shouty g.enumerants ⟨[], [], []⟩
  refine ⟨?_, ?_, ?_⟩
  · show (g.enumerants.foldl (bitStep shouty) ⟨[], [], []⟩).operands = _
    rw [h2]
    rfl
  · have hcmem : (bitSymbol shouty e.symbol, e.value, e.parameters.map operandOf)
        ∈ (bitLocals shouty g).operands := by
      show _ ∈ (g.enumerants.foldl (bitStep shouty) ⟨[], [], []⟩).operands
      rw [h2]
      refine List.mem_append_right _ ?_
      exact List.mem_map.mpr ⟨e, List.mem_filter.mpr ⟨he, by simp [hp]⟩, rfl⟩
    exact flagOperandLookup_of_mem _ _ hcmem hnd v hv
  · show Decl.bitEnum g.kind
        (g.enumerants.foldl (bitStep shouty) ⟨[], [], []⟩).elements = _
    rw [h1]
    rfl

/-- Witness for C3 at the concrete bit enum: looking up `ALIGNED` against the
flag set 6 (which strictly contains the flag's bit 2) returns the attached
operand. -/
theorem claim_C3_witness :
    flagOperandLookup (bitLocals id bitP1).operands 6 (bitSymbol id "ALIGNED")
      = some ([(⟨"LiteralInteger", Quantifier.One⟩ : Parameter)].map operandOf) :=
  (claim_C3_flag_operand_cases id bitP1 (by decide)
    ⟨"ALIGNED", 2, [], [], [⟨"LiteralInteger", Quantifier.One⟩]⟩ (by decide)
    (by decide) 6 (by decide)).2.1

/-- C6: the generated `from_str` succeeds on a string exactly when it is a
canonical identifier of the kind or the raw symbol of an alias (a later
enumerant duplicating an earlier value), by exact case-sensitive match, and
every accepted string resolves to a canonical identifier; every other string
is rejected. -/
theorem claim_C6_from_name (g : OperandKind) (s : String) :
    ((∃ r, fromStr (veScan g).from_str_impl s = Except.ok r)
      ↔ ((∃ v, canonOf g.kind g.enumerants v = some s)
        ∨ (∃ A e B, g.enumerants = A ++ e :: B ∧ e.symbol = s
            ∧ ∃ e₀ ∈ A, e₀.value = e.value)))
    ∧ (∀ r, fromStr (veScan g).from_str_impl s = Except.ok r →
        ∃ v, canonOf g.kind g.enumerants v = some r) := by
  have hchar := (veScan_char g).2.2.2.2.1
  constructor
  · constructor
    · rintro ⟨r, hr⟩
      unfold fromStr at hr
      cases hfind : (veScan g).from_str_impl.find? (fun a => a.1 == s)
        <;> rw [hfind] at hr
      · cases hr
      · rename_i p
        have hp : p ∈ (veScan g).from_str_impl :=
          List.mem_of_find?_eq_some hfind
        have hps : p.1 = s := by
          have h := List.find?_some hfind
          simpa using h
        rw [hchar] at hp
        have hsound := fromStrArms_sound g.kind g.enumerants [] g.enumerants
          rfl p hp
        rcases hsound.2 with hcanon | halias
        · left
          rw [← hps]
          exact hcanon
        · right
          rw [← hps]
          exact halias
    · intro h
      have hkey : ∃ p ∈ (veScan g).from_str_impl, p.1 = s := by
        rw [hchar]
        rcases h with ⟨v, hv⟩ | ⟨A, e, B, hsplit, hsym, e₀, he₀, hv₀⟩
        · unfold canonOf at hv
          obtain ⟨e₁, hfind, hname⟩ := Option.map_eq_some'.mp hv
          obtain ⟨hpb, A, B, hAB, hAn⟩ := List.find?_eq_some.mp hfind
          have hv₁ : e₁.value = v := by simpa using hpb
          rw [hAB, fromStrArms_append g.kind A [] (e₁ :: B)]
          refine ⟨(canonName g.kind e₁, canonName g.kind e₁), ?_, hname⟩
          refine List.mem_append_right _ ?_
          have hAnone : canonOf g.kind ([] ++ A) e₁.value = none := by
            simp only [List.nil_append]
            unfold canonOf
            rw [List.find?_eq_none.mpr]
            · rfl
            · intro a ha
              have h2 := hAn a ha
              rw [hv₁]
              simpa using h2
          show _ ∈ fromStrArms g.kind ([] ++ A) (e₁ :: B)
          simp only [fromStrArms, hAnone]
          exact List.mem_cons_self _ _
        · have hAsome : (A.find? (fun x => x.value == e.value)).isSome :=
            List.find?_isSome.mpr ⟨e₀, he₀, by simpa using hv₀⟩
          obtain ⟨e₁, he₁⟩ := Option.isSome_iff_exists.mp hAsome
          have hd : canonOf g.kind ([] ++ A) e.value
              = some (canonName g.kind e₁) := by
            simp only [List.nil_append]
            unfold canonOf
            rw [he₁]
            rfl
          rw [hsplit, fromStrArms_append g.kind A [] (e :: B)]
          refine ⟨(e.symbol, canonName g.kind e₁), ?_, hsym⟩
          refine List.mem_append_right _ ?_
          show _ ∈ fromStrArms g.kind ([] ++ A) (e :: B)
          simp only [fromStrArms, hd]
          exact List.mem_cons_self _ _
      obtain ⟨p, hp, hps⟩ := hkey
      have hfs : ((veScan g).from_str_impl.find? (fun a => a.1 == s)).isSome :=
        List.find?_isSome.mpr ⟨p, hp, by simpa using hps⟩
      obtain ⟨q, hq⟩ := Option.isSome_iff_exists.mp hfs
      refine ⟨q.2, ?_⟩
      unfold fromStr
      rw [hq]
  · intro r hr
    unfold fromStr at hr
    cases hfind : (veScan g).from_str_impl.find? (fun a => a.1 == s)
      <;> rw [hfind] at hr
    · cases hr
    · rename_i p
      have hp : p ∈ (veScan g).from_str_impl :=
        List.mem_of_find?_eq_some hfind
      rw [hchar] at hp
      have hsound := fromStrArms_sound g.kind g.enumerants [] g.enumerants
        rfl p hp
      have hpr : p.2 = r := by
        injection hr
      rw [← hpr]
      exact hsound.1

/-- C7: the assembled header is the format constants first, then exactly one
declaration per BitEnum/ValueEnum operand kind in grammar order with the other
categories skipped leaving no gap, then the `Op` enumeration with its aliases
and numeric round-trip arms. -/
theorem claim_C7_header_order (shouty : String → String) (g : Grammar)
    (ds : List Decl) (h : gen_spirv_header shouty g = some ds) :
    ∃ st, opRun opInit g.instructions = some st
      ∧ ds = Decl.formatConstants g.magic_number g.major_version
            g.minor_version g.revision
          :: ((g.operand_kinds.filter isGenerated).map (declOf shouty)
            ++ [Decl.opEnum "Op" st.opcodes st.aliases st.from_prim_list])
      ∧ (∀ k, (gen_operand_kind shouty k).isSome = isGenerated k) := by
  unfold gen_spirv_header at h
  cases hrun : opRun opInit g.instructions <;> rw [hrun] at h
  · cases h
  · rename_i st
    refine ⟨st, rfl, ?_, ?_⟩
    · have hds := (Option.some.inj h).symm
      rw [hds, filterMap_eq_filter_map shouty g.operand_kinds]
    · intro k
      cases hk : k.category <;> simp [gen_operand_kind, isGenerated, hk]

/-- Witness for C7 at the small concrete grammar. -/
theorem claim_C7_witness :
    ∃ ds, gen_spirv_header id exG = some ds
      ∧ ∃ st, opRun opInit exG.instructions = some st
        ∧ ds = Decl.formatConstants exG.magic_number exG.major_version
              exG.minor_version exG.revision
            :: ((exG.operand_kinds.filter isGenerated).map (declOf id)
              ++ [Decl.opEnum "Op" st.opcodes st.aliases st.from_prim_list])
        ∧ (∀ k, (gen_operand_kind id k).isSome = isGenerated k) := by
  cases hds : gen_spirv_header id exG with
  | none =>
    have hS : (gen_spirv_header id exG).isSome = true := by decide
    rw [hds] at hS
    cases hS
  | some ds => exact ⟨ds, rfl, claim_C7_header_order id exG ds hds⟩

/-- C1: scanning enumerants (and main-table instructions) in grammar order,
the first entry with a given numeric value becomes the canonical discriminant;
every later entry with the same value contributes only an alias constant bound
to the canonical identifier (and, for value enums, a string-conversion key
resolving to it), never a new discriminant, and its parameter list is ignored
(first write wins). -/
theorem claim_C1_first_write_wins (g : OperandKind) (A : List Enumerant)
    (e : Enumerant) (B : List Enumerant) (hsplit : g.enumerants = A ++ e :: B)
    (hdup : ∃ e₀ ∈ A, e₀.value = e.value) :
    (∃ c, canonOf g.kind A e.value = some c
      ∧ canonOf g.kind g.enumerants e.value = some c
      ∧ (e.symbol, c) ∈ (veScan g).aliases
      ∧ (e.symbol, c) ∈ (veScan g).from_str_impl)
    ∧ ((veScan g).enumerants.map Prod.snd).Nodup
    ∧ (∀ ps, veScan ⟨g.category, g.kind, A ++ { e with parameters := ps } :: B⟩
        = veScan g)
    ∧ (∀ (insts : List Instruction) (st : OpState) (I : List Instruction)
        (inst : Instruction) (J : List Instruction),
        opRun opInit insts = some st → insts = I ++ inst :: J →
        (∃ i₀ ∈ I, i₀.opcode = inst.opcode) →
        (∃ nm c, stripOp inst.opname = some nm
          ∧ opCanonOf I inst.opcode = some c
          ∧ (nm, c) ∈ st.aliases)
        ∧ (st.opcodes.map Prod.snd).Nodup) := by
  obtain ⟨e₀, he₀, hv₀⟩ := hdup
  have hAsome : (canonOf g.kind A e.value).isSome := by
    unfold canonOf
    have hf : (A.find? (fun x => x.value == e.value)).isSome :=
      List.find?_isSome.mpr ⟨e₀, he₀, by simpa using hv₀⟩
    obtain ⟨e₁, he₁⟩ := Option.isSome_iff_exists.mp hf
    rw [he₁]
    rfl
  obtain ⟨c, hc⟩ := Option.isSome_iff_exists.mp hAsome
  have hcnil : canonOf g.kind ([] ++ A) e.value = some c := by
    simpa using hc
  refine ⟨⟨c, hc, ?_, ?_, ?_⟩, ?_, ?_, ?_⟩
  · rw [hsplit, canonOf_append, hc]
    rfl
  · rw [(veScan_char g).2.2.2.1, hsplit,
      aliasArms_append g.kind A [] (e :: B)]
    refine List.mem_append_right _ ?_
    show _ ∈ aliasArms g.kind ([] ++ A) (e :: B)
    simp only [aliasArms, hcnil]
    exact List.mem_cons_self _ _
  · rw [(veScan_char g).2.2.2.2.1, hsplit,
      fromStrArms_append g.kind A [] (e :: B)]
    refine List.mem_append_right _ ?_
    show _ ∈ fromStrArms g.kind ([] ++ A) (e :: B)
    simp only [fromStrArms, hcnil]
    exact List.mem_cons_self _ _
  · rw [(veScan_char g).2.1]
    have h := (canonEnums_values g.kind g.enumerants []).1
    simpa [List.map_map, Function.comp] using h
  · intro ps
    have hAsome' : (canonOf g.kind A
        ({ e with parameters := ps } : Enumerant).value).isSome := hAsome
    have hcongr : ∀ v,
        canonOf g.kind (A ++ [{ e with parameters := ps }]) v
          = canonOf g.kind (A ++ [e]) v := by
      intro v
      rw [canonOf_append_dup g.kind A _ hAsome',
        canonOf_append_dup g.kind A e hAsome]
    have hCE : canonEnums g.kind [] (A ++ { e with parameters := ps } :: B)
        = canonEnums g.kind [] (A ++ e :: B) := by
      rw [canonEnums_append g.kind A [] _, canonEnums_append g.kind A [] _]
      congr 1
      show canonEnums g.kind ([] ++ A) ({ e with parameters := ps } :: B)
        = canonEnums g.kind ([] ++ A) (e :: B)
      simp only [List.nil_append, canonEnums]
      show (match canonOf g.kind A e.value with
        | some _ => canonEnums g.kind (A ++ [{ e with parameters := ps }]) B
        | none => { e with parameters := ps }
            :: canonEnums g.kind (A ++ [{ e with parameters := ps }]) B) = _
      rw [hc]
      show canonEnums g.kind (A ++ [{ e with parameters := ps }]) B
        = canonEnums g.kind (A ++ [e]) B
      exact canonEnums_congr g.kind B _ _ hcongr
    have hAA : aliasArms g.kind [] (A ++ { e with parameters := ps } :: B)
        = aliasArms g.kind [] (A ++ e :: B) := by
      rw [aliasArms_append g.kind A [] _, aliasArms_append g.kind A [] _]
      congr 1
      show aliasArms g.kind ([] ++ A) ({ e with parameters := ps } :: B)
        = aliasArms g.kind ([] ++ A) (e :: B)
      simp only [List.nil_append, aliasArms]
      show (match canonOf g.kind A e.value with
        | some d => (e.symbol, d)
            :: aliasArms g.kind (A ++ [{ e with parameters := ps }]) B
        | none => aliasArms g.kind (A ++ [{ e with parameters := ps }]) B) = _
      rw [hc]
      show (e.symbol, c)
          :: aliasArms g.kind (A ++ [{ e with parameters := ps }]) B = _
      rw [aliasArms_congr g.kind B _ _ hcongr]
    have hFS : fromStrArms g.kind [] (A ++ { e with parameters := ps } :: B)
        = fromStrArms g.kind [] (A ++ e :: B) := by
      rw [fromStrArms_append g.kind A [] _, fromStrArms_append g.kind A [] _]
      congr 1
      show fromStrArms g.kind ([] ++ A) ({ e with parameters := ps } :: B)
        = fromStrArms g.kind ([] ++ A) (e :: B)
      simp only [List.nil_append, fromStrArms]
      show (match canonOf g.kind A e.value with
        | some d => (e.symbol, d)
            :: fromStrArms g.kind (A ++ [{ e with parameters := ps }]) B
        | none => (canonName g.kind e, canonName g.kind e)
            :: fromStrArms g.kind (A ++ [{ e with parameters := ps }]) B) = _
      rw [hc]
      show (e.symbol, c)
          :: fromStrArms g.kind (A ++ [{ e with parameters := ps }]) B = _
      rw [fromStrArms_congr g.kind B _ _ hcongr]
    obtain ⟨_, k2, k3, k4, k5, k6, k7, k8, k9⟩ := veScan_char g
    obtain ⟨_, m2, m3, m4, m5, m6, m7, m8, m9⟩ := veScan_char
      (⟨g.category, g.kind, A ++ { e with parameters := ps } :: B⟩ : OperandKind)
    apply VEState.ext
    · rw [m9, k9, hsplit, hCE]
    · rw [m2, k2, hsplit, hCE]
    · rw [m3, k3, hsplit, hCE]
    · rw [m4, k4, hsplit, hAA]
    · rw [m6, k6, hsplit, hCE]
    · rw [m7, k7, hsplit, hCE]
    · rw [m8, k8, hsplit, hCE]
    · rw [m5, k5, hsplit, hFS]
  · intro insts st I inst J hrun hsplit2 hdup2
    have heq := opRun_eq_pairRun insts opInit
    rw [hrun] at heq
    cases hsp : strippedPairs insts <;> rw [hsp] at heq
    · cases heq
    · rename_i ps2
      have hst : st = pairRun opInit ps2 := Option.some.inj heq
      rw [hsplit2, strippedPairs_append I (inst :: J)] at hsp
      cases hspI : strippedPairs I <;> rw [hspI] at hsp
      · cases hsp
      · rename_i pI
        simp only [Option.bind, strippedPairs] at hsp
        cases hnm : stripOp inst.opname <;> rw [hnm] at hsp
        · cases hsp
        · rename_i nm
          cases hspJ : strippedPairs J <;> rw [hspJ] at hsp
          · cases hsp
          · rename_i pJ
            have hps2 : ps2 = pI ++ (nm, inst.opcode) :: pJ := by
              have h2 := Option.some.inj hsp
              rw [← h2]
            obtain ⟨i₀, hi₀, hvi₀⟩ := hdup2
            have hfi : (I.find? (fun i => i.opcode == inst.opcode)).isSome :=
              List.find?_isSome.mpr ⟨i₀, hi₀, by simpa using hvi₀⟩
            obtain ⟨i₁, hi₁⟩ := Option.isSome_iff_exists.mp hfi
            have hi₁mem : i₁ ∈ I := List.mem_of_find?_eq_some hi₁
            have hstrip₁ : (stripOp i₁.opname).isSome :=
              strippedPairs_isSome_elem I pI hspI i₁ hi₁mem
            obtain ⟨c, hcop⟩ := Option.isSome_iff_exists.mp hstrip₁
            have hoc : opCanonOf I inst.opcode = some c := by
              unfold opCanonOf
              rw [hi₁]
              dsimp only
              exact hcop
            have hpc : pcanonOf pI inst.opcode = some c := by
              rw [strippedPairs_pcanonOf I pI hspI]
              exact hoc
            obtain ⟨_, q2, q3, _⟩ := pairRun_char ps2 opInit [] (fun v => rfl)
            constructor
            · refine ⟨nm, c, rfl, hoc, ?_⟩
              rw [hst, q3, hps2, opAliasArms_append pI [] ((nm, inst.opcode) :: pJ)]
              refine List.mem_append_right _ (List.mem_append_right _ ?_)
              show (nm, c) ∈ opAliasArms ([] ++ pI) ((nm, inst.opcode) :: pJ)
              have hpc' : pcanonOf ([] ++ pI)
                  ((nm, inst.opcode) : String × Nat).2 = some c := by
                simpa using hpc
              simp only [opAliasArms, hpc']
              exact List.mem_cons_self _ _
            · rw [hst, q2]
              have h := (opCanonPairs_values ps2 []).1
              simpa using h

/-- Witness for C1 at the spec's `{A=0, B=1, C=1}` example: the duplicate `C`
is bound to the canonical `B`. -/
theorem claim_C1_witness :
    ("C", "B") ∈ (veScan exABC).aliases := by
  obtain ⟨⟨c, hc, _, hal, _⟩, _⟩ := claim_C1_first_write_wins exABC
    [⟨"A", 0, [], [], []⟩, ⟨"B", 1, [], [], []⟩] ⟨"C", 1, [], [], []⟩ [] rfl
    ⟨⟨"B", 1, [], [], []⟩, by decide, rfl⟩
  have hcB : c = "B" := by
    have h2 : canonOf exABC.kind
        [⟨"A", 0, [], [], []⟩, ⟨"B", 1, [], [], []⟩]
        ((⟨"C", 1, [], [], []⟩ : Enumerant).value) = some "B" := by decide
    exact Option.some.inj (hc.symm.trans h2)
  rw [hcB] at hal
  exact hal

end RSpirv
